import Mathlib

/-
Formal model of `brief.c`, a configurable brainfuck interpreter.

The development shallowly embeds the compile scan (brief.c lines 127-168),
the `wrap` helper (lines 79-81) and the per-opcode bodies of the execution
switch (lines 184-288).  C `long` values are modelled as `Int`; counters
that the program only ever increments from small non-negative starts are
modelled as `Nat`.  Fields of `struct instruction` that the C code leaves
unwritten (malloc'd memory that is never initialized) are modelled as
`Option` fields holding `none`; reading such a field is undefined
behaviour in C and surfaces here as an explicit error value.
-/

namespace Brief

/-- The six source characters subject to run-length folding in the compile
scan: the cases grouped together at brief.c lines 129-134. -/
def isFold (c : Char) : Bool :=
  c = '+' || c = '-' || c = '>' || c = '<' || c = ',' || c = '.'

/-- The eight recognized operator characters; every other character falls
into the `default` arm of the scan switch and is ignored. -/
def isOp (c : Char) : Bool :=
  isFold c || c = '[' || c = ']'

/-- Mirror of `struct instruction` (brief.c lines 27-31).  `quantity` and
`loop` are `Option` because the C code writes them only on some paths:
`quantity` is never written for bracket instructions, and `loop` is only
written for brackets that get matched.  `none` models the uninitialized
malloc'd field. -/
structure Instr where
  instruction : Char
  quantity : Option Nat
  loop : Option Nat
  deriving DecidableEq

/-- Failure marker for the compile scan.  `loopStackOOB` models the C code
reading `ls[ln - 1]` with `ln == 0` (brief.c line 161) on a close bracket
with an empty loop stack: an out-of-bounds array read, which is undefined
behaviour.  It is not a diagnosed error; the program has no bracket error
message at all. -/
inductive CompileUB where
  | loopStackOOB
  deriving DecidableEq

/-- The run-time configuration held in `main`'s locals: EOF behaviour
`ce`, cell count `cn`, cell-pointer wrap behaviour `cw`, minimum value
`va`, maximum value `vb`, value wrap behaviour `vw` (brief.c lines
84-97). -/
structure Config where
  ce : Char
  cn : Int
  cw : Char
  va : Int
  vb : Int
  vw : Char
  deriving DecidableEq

/-- The default configuration from `main`'s initializers (brief.c lines
84-97). -/
def defaults : Config :=
  { ce := '0', cn := 30000, cw := 'e', va := 0, vb := 255, vw := 'w' }

/-- The C function `wrap` (brief.c lines 79-81).  C's `%` on `long` is
truncated division remainder (sign follows the dividend), which is
`Int.tmod`, not Lean's Euclidean `%`. -/
def wrap (value low high : Int) : Int :=
  Int.tmod (value - low) (1 + high - low) + low

/-- Increment the `quantity` of the last instruction, mirroring
`++im[in - 1].quantity` (brief.c line 136).  The increment acts on an
initialized field; bumping an uninitialized (`none`) field would itself
be undefined behaviour, kept as `none` here (it never occurs: only
foldable instructions, whose quantity is set to 1 at creation, are ever
bumped). -/
def bumpLast : List Instr → List Instr
  | [] => []
  | [x] => [{ x with quantity := x.quantity.map (· + 1) }]
  | x :: y :: xs => x :: bumpLast (y :: xs)

/-- Overwrite the `loop` field of the instruction at index `k`, mirroring
`im[ls[ln - 1]].loop = ii` (brief.c line 162).  Out-of-range `k` leaves
the list unchanged (never reached from the scan). -/
def setLoop : List Instr → Nat → Nat → List Instr
  | [], _, _ => []
  | x :: xs, 0, n => { x with loop := some n } :: xs
  | x :: xs, k + 1, n => x :: setLoop xs k n

/-- One iteration of the compile scan switch (brief.c lines 128-167) on
character `c`, with current instruction list `im` and loop stack `ls`
(head = top of stack, i.e. `ls[ln - 1]`).  The C variables `ii` and `in`
always hold the same value, the number of instructions built so far,
which here is `im.length`.  The reallocation of the two arrays is memory
management only and has no behavioural content. -/
def compileStep (im : List Instr) (ls : List Nat) (c : Char) :
    Except CompileUB (List Instr × List Nat) :=
  if isFold c then
    match im.getLast? with
    | some last =>
        if last.instruction = c then Except.ok (bumpLast im, ls)
        else Except.ok (im ++ [⟨c, some 1, none⟩], ls)
    | none => Except.ok (im ++ [⟨c, some 1, none⟩], ls)
  else if c = '[' then
    Except.ok (im ++ [⟨'[', none, none⟩], im.length :: ls)
  else if c = ']' then
    match ls with
    | [] => Except.error CompileUB.loopStackOOB
    | top :: rest =>
        Except.ok (setLoop im top im.length ++ [⟨']', none, some top⟩], rest)
  else Except.ok (im, ls)

/-- The compile scan loop (brief.c lines 127-168) over a whole source. -/
def compileAux : List Char → List Instr → List Nat →
    Except CompileUB (List Instr × List Nat)
  | [], im, ls => Except.ok (im, ls)
  | c :: cs, im, ls =>
      match compileStep im ls c with
      | Except.ok (im', ls') => compileAux cs im' ls'
      | Except.error e => Except.error e

/-- Compilation of a source text.  NOTE: after the scan the C code does
not inspect the loop stack; a source ending with unmatched `[` is
accepted and its instruction list returned as-is (with the open
brackets' `loop` fields never written). -/
def compile (src : List Char) : Except CompileUB (List Instr) :=
  match compileAux src [] [] with
  | Except.ok (im, _) => Except.ok im
  | Except.error e => Except.error e

/-- The compile scan as it sits inside `main`, where the configuration
locals (`va`, `vb`, `cn`, `ce`, `cw`, `vw`) are in scope: none of the
scan lines 127-168 reads any of them, so the result is `compile src`
for every configuration. -/
def compileWithConfig (_cfg : Config) (src : List Char) :
    Except CompileUB (List Instr) :=
  compile src

/-- Run-time failures of one instruction.  The first six mirror the
`die` calls inside the execution switch; the last three mark undefined
behaviour (out-of-bounds cell access, reading an uninitialized
`quantity` or `loop` field). -/
inductive ExecErr where
  | valueOverflow
  | valueUnderflow
  | cellIndexOverflow
  | cellIndexUnderflow
  | invalidValueEnd
  | invalidCellEnd
  | invalidEOF
  | cellOOB
  | uninitQuantity
  | uninitLoop
  deriving DecidableEq

/-- Body of the `BF_OP_VINC` arm (brief.c lines 185-202): `cell` is
`cm[ci]`, `q` is `im[ii].quantity`; returns the new `cm[ci]`. -/
def execVinc (cfg : Config) (q cell : Int) : Except ExecErr Int :=
  if cell + q > cfg.vb then
    if cfg.vw = 'e' then Except.error ExecErr.valueOverflow
    else if cfg.vw = 'i' then Except.ok cfg.vb
    else if cfg.vw = 'w' then Except.ok (wrap (cell + q) cfg.va cfg.vb)
    else Except.error ExecErr.invalidValueEnd
  else Except.ok (cell + q)

/-- Body of the `BF_OP_VDEC` arm (brief.c lines 203-220). -/
def execVdec (cfg : Config) (q cell : Int) : Except ExecErr Int :=
  if cell - q < cfg.va then
    if cfg.vw = 'e' then Except.error ExecErr.valueUnderflow
    else if cfg.vw = 'i' then Except.ok cfg.va
    else if cfg.vw = 'w' then Except.ok (wrap (cell - q) cfg.va cfg.vb)
    else Except.error ExecErr.invalidValueEnd
  else Except.ok (cell - q)

/-- Body of the `BF_OP_PINC` arm (brief.c lines 221-238): `ci` is the
cell pointer; returns the new pointer.  Note the wrap call passes `cn`
as the high bound, so the reduction is modulo `cn + 1`. -/
def execPinc (cfg : Config) (q ci : Int) : Except ExecErr Int :=
  if ci + q > cfg.cn - 1 then
    if cfg.cw = 'e' then Except.error ExecErr.cellIndexOverflow
    else if cfg.cw = 'i' then Except.ok (cfg.cn - 1)
    else if cfg.cw = 'w' then Except.ok (wrap (ci + q) 0 cfg.cn)
    else Except.error ExecErr.invalidCellEnd
  else Except.ok (ci + q)

/-- Body of the `BF_OP_PDEC` arm (brief.c lines 239-256). -/
def execPdec (cfg : Config) (q ci : Int) : Except ExecErr Int :=
  if ci - q < 0 then
    if cfg.cw = 'e' then Except.error ExecErr.cellIndexUnderflow
    else if cfg.cw = 'i' then Except.ok 0
    else if cfg.cw = 'w' then Except.ok (wrap (ci - q) 0 cfg.cn)
    else Except.error ExecErr.invalidCellEnd
  else Except.ok (ci - q)

/-- One repetition of the `BF_OP_IN` arm body (brief.c lines 258-273).
`getchar` is modelled by the head of `input`; an exhausted input is
`getchar` returning `EOF`, whose value is `-1`.  The switch may replace
`k`; afterwards `cm[ci] = k` runs unconditionally, so the pair returned
is the remaining input and the new `cm[ci]`.  In the `BF_EOF_NOCHG`
case the switch body is just `break`, leaving `k` equal to `EOF`, and
the cell is still assigned. -/
def execReadOne (cfg : Config) (input : List Int) :
    Except ExecErr (List Int × Int) :=
  match input with
  | b :: rest => Except.ok (rest, b)
  | [] =>
      if cfg.ce = '0' then Except.ok ([], 0)
      else if cfg.ce = 'n' then Except.ok ([], -1)
      else if cfg.ce = 'a' then Except.ok ([], cfg.va)
      else if cfg.ce = 'b' then Except.ok ([], cfg.vb)
      else if cfg.ce = 'x' then Except.ok ([], -1)
      else Except.error ExecErr.invalidEOF

/-- The `BF_OP_IN` arm's repetition loop (`for (j = im[ii].quantity; j;
j--)`, brief.c line 258), threading the current cell value through the
`q` repetitions. -/
def execRead (cfg : Config) : Nat → List Int → Int →
    Except ExecErr (List Int × Int)
  | 0, input, cell => Except.ok (input, cell)
  | q + 1, input, _cell =>
      match execReadOne cfg input with
      | Except.ok (input', k) => execRead cfg q input' k
      | Except.error e => Except.error e

/-- The `BF_OP_OUT` arm (brief.c lines 275-277): emit `q` copies of the
current cell.  `putchar` writes the value converted to `unsigned char`,
i.e. the non-negative residue modulo 256 (for values where the
intermediate `long` to `int` conversion is exact). -/
def execWrite (q : Nat) (cell : Int) (output : List Int) : List Int :=
  output ++ List.replicate q (cell % 256)

/-- Mutable machine state of the run loop: cell memory `cm`, cell
pointer `ci`, instruction index `ii` (already advanced past the current
instruction on return), remaining input and accumulated output. -/
structure MState where
  cm : List Int
  ci : Int
  ii : Nat
  input : List Int
  output : List Int
  deriving DecidableEq

/-- Read `cm[ci]`; a pointer outside the allocation is an out-of-bounds
access (undefined behaviour). -/
def cellGet (cm : List Int) (ci : Int) : Except ExecErr Int :=
  if ci < 0 then Except.error ExecErr.cellOOB
  else
    match cm[ci.toNat]? with
    | some v => Except.ok v
    | none => Except.error ExecErr.cellOOB

/-- Write `cm[ci] = v`, with the same out-of-bounds proviso. -/
def cellSet (cm : List Int) (ci v : Int) : Except ExecErr (List Int) :=
  if ci < 0 then Except.error ExecErr.cellOOB
  else if ci.toNat < cm.length then Except.ok (cm.set ci.toNat v)
  else Except.error ExecErr.cellOOB

/-- Fetch `im[ii].quantity`; `none` is an uninitialized read. -/
def getQuantity (ins : Instr) : Except ExecErr Nat :=
  match ins.quantity with
  | some q => Except.ok q
  | none => Except.error ExecErr.uninitQuantity

/-- Fetch `im[ii].loop`; `none` is an uninitialized read. -/
def getLoop (ins : Instr) : Except ExecErr Nat :=
  match ins.loop with
  | some t => Except.ok t
  | none => Except.error ExecErr.uninitLoop

/-- One pass through the execution switch (brief.c lines 184-288) for
instruction `ins`; `st.ii` is advanced (or redirected and then
advanced by the surrounding `for`). -/
def execInstr (cfg : Config) (ins : Instr) (st : MState) :
    Except ExecErr MState :=
  if ins.instruction = '+' then
    match getQuantity ins with
    | Except.error e => Except.error e
    | Except.ok q =>
        match cellGet st.cm st.ci with
        | Except.error e => Except.error e
        | Except.ok v =>
            match execVinc cfg (q : Int) v with
            | Except.error e => Except.error e
            | Except.ok v' =>
                match cellSet st.cm st.ci v' with
                | Except.error e => Except.error e
                | Except.ok cm' =>
                    Except.ok { st with cm := cm', ii := st.ii + 1 }
  else if ins.instruction = '-' then
    match getQuantity ins with
    | Except.error e => Except.error e
    | Except.ok q =>
        match cellGet st.cm st.ci with
        | Except.error e => Except.error e
        | Except.ok v =>
            match execVdec cfg (q : Int) v with
            | Except.error e => Except.error e
            | Except.ok v' =>
                match cellSet st.cm st.ci v' with
                | Except.error e => Except.error e
                | Except.ok cm' =>
                    Except.ok { st with cm := cm', ii := st.ii + 1 }
  else if ins.instruction = '>' then
    match getQuantity ins with
    | Except.error e => Except.error e
    | Except.ok q =>
        match execPinc cfg (q : Int) st.ci with
        | Except.error e => Except.error e
        | Except.ok ci' => Except.ok { st with ci := ci', ii := st.ii + 1 }
  else if ins.instruction = '<' then
    match getQuantity ins with
    | Except.error e => Except.error e
    | Except.ok q =>
        match execPdec cfg (q : Int) st.ci with
        | Except.error e => Except.error e
        | Except.ok ci' => Except.ok { st with ci := ci', ii := st.ii + 1 }
  else if ins.instruction = ',' then
    match getQuantity ins with
    | Except.error e => Except.error e
    | Except.ok q =>
        match cellGet st.cm st.ci with
        | Except.error e => Except.error e
        | Except.ok v =>
            match execRead cfg q st.input v with
            | Except.error e => Except.error e
            | Except.ok (input', v') =>
                match cellSet st.cm st.ci v' with
                | Except.error e => Except.error e
                | Except.ok cm' =>
                    Except.ok { st with cm := cm', input := input',
                                        ii := st.ii + 1 }
  else if ins.instruction = '.' then
    match getQuantity ins with
    | Except.error e => Except.error e
    | Except.ok q =>
        match cellGet st.cm st.ci with
        | Except.error e => Except.error e
        | Except.ok v =>
            Except.ok { st with output := execWrite q v st.output,
                                ii := st.ii + 1 }
  else if ins.instruction = '[' then
    match cellGet st.cm st.ci with
    | Except.error e => Except.error e
    | Except.ok v =>
        if v = 0 then
          match getLoop ins with
          | Except.error e => Except.error e
          | Except.ok t => Except.ok { st with ii := t + 1 }
        else Except.ok { st with ii := st.ii + 1 }
  else if ins.instruction = ']' then
    match cellGet st.cm st.ci with
    | Except.error e => Except.error e
    | Except.ok v =>
        if v ≠ 0 then
          match getLoop ins with
          | Except.error e => Except.error e
          | Except.ok t => Except.ok { st with ii := t + 1 }
        else Except.ok { st with ii := st.ii + 1 }
  else Except.ok { st with ii := st.ii + 1 }

instance {ε α : Type} [DecidableEq ε] [DecidableEq α] : DecidableEq (Except ε α) := fun x y =>
  match x, y with
  | Except.ok a, Except.ok b =>
      if h : a = b then Decidable.isTrue (by rw [h])
      else Decidable.isFalse (by intro hh; cases hh; exact h rfl)
  | Except.ok _, Except.error _ => Decidable.isFalse (by intro h; cases h)
  | Except.error _, Except.ok _ => Decidable.isFalse (by intro h; cases h)
  | Except.error e, Except.error f =>
      if h : e = f then Decidable.isTrue (by rw [h])
      else Decidable.isFalse (by intro hh; cases hh; exact h rfl)

/-- A configuration selecting the clamping (`BF_END_IGNORE`) behaviour
for both values and the pointer. -/
def cfgSat : Config :=
  { ce := '0', cn := 30000, cw := 'i', va := 0, vb := 255, vw := 'i' }

/-- The default configuration with a ten-cell tape and wrapping pointer
policy, as in the spec's end-to-end scenario 4. -/
def cfgTen : Config :=
  { ce := '0', cn := 10, cw := 'w', va := 0, vb := 255, vw := 'w' }

/-- The default configuration with `value_max` lowered to 10. -/
def cfgTenMax : Config :=
  { ce := '0', cn := 30000, cw := 'e', va := 0, vb := 10, vw := 'w' }

/-- Modelled from the spec, for comparison with `compile`: the claimed
grouping of a source (already stripped of ignored characters) into one
`(opcode, count)` pair per maximal run of identical foldable operator
characters, with each bracket its own group of count 1. -/
def foldSpec : List Char → List (Char × Nat)
  | [] => []
  | c :: cs =>
      if isFold c then
        (c, 1 + (cs.takeWhile (fun d => d = c)).length) ::
          foldSpec (cs.dropWhile (fun d => d = c))
      else (c, 1) :: foldSpec cs
termination_by l => l.length
decreasing_by
  · exact Nat.lt_succ_of_le (List.dropWhile_sublist _).length_le
  · exact Nat.lt_succ_self _

/-- Projection of an instruction list to opcodes and repeat counts. -/
def rleView (im : List Instr) : List (Char × Option Nat) :=
  im.map fun x => (x.instruction, x.quantity)

/-- The opcode/count view predicted by `foldSpec`: foldable groups carry
their run length; brackets carry the uninitialized (`none`) quantity. -/
def specView (src : List Char) : List (Char × Option Nat) :=
  (foldSpec src).map fun p => (p.1, if isFold p.1 then some p.2 else none)

/-- Modelled from the spec: well-formed (properly nested, fully matched)
bracket structure of a character sequence.  Non-bracket characters may
appear anywhere; every `[` has its matching `]`. -/
inductive Balanced : List Char → Prop
  | nil : Balanced []
  | ch {c : Char} {s : List Char} (h1 : c ≠ '[') (h2 : c ≠ ']')
      (h : Balanced s) : Balanced (c :: s)
  | brk {s t : List Char} (h1 : Balanced s) (h2 : Balanced t) :
      Balanced ('[' :: s ++ ']' :: t)

/-- Projection of an instruction list to opcodes and loop targets. -/
def loopView (im : List Instr) : List (Char × Option Nat) :=
  im.map fun x => (x.instruction, x.loop)

/-- The opcode sequence of an instruction list. -/
def opsOf (im : List Instr) : List Char :=
  im.map fun x => x.instruction

/-- Modelled from the spec: the instruction at `j` is the matching
LoopClose for the LoopOpen at `i` exactly when `j` is a close bracket at
a strictly greater index and the opcodes strictly between the two form a
well-formed bracket nesting (so the two sit at the same nesting
depth). -/
def Matched (im : List Instr) (i j : Nat) : Prop :=
  i < j ∧ (im[i]?).map (fun x => x.instruction) = some '[' ∧
    (im[j]?).map (fun x => x.instruction) = some ']' ∧
    Balanced (((opsOf im).drop (i + 1)).take (j - (i + 1)))

/-- Over an opcode/loop-target view `L`, every bracket entry at index
`lo` or later is linked through its loop field to a partner bracket at
the correct depth, the partner points back, closes sit strictly after
their opens, and a close's open is itself at index `lo` or later. -/
def LinkedFrom (L : List (Char × Option Nat)) (lo : Nat) : Prop :=
  ∀ i, lo ≤ i → ∀ c t, L[i]? = some (c, t) →
    (c = '[' → ∃ j, t = some j ∧ i < j ∧ L[j]? = some (']', some i) ∧
        Balanced (((L.map Prod.fst).drop (i + 1)).take (j - (i + 1)))) ∧
    (c = ']' → ∃ j, t = some j ∧ lo ≤ j ∧ j < i ∧ L[j]? = some ('[', some i) ∧
        Balanced (((L.map Prod.fst).drop (j + 1)).take (i - (j + 1))))

lemma isFold_not_lbracket {h : Char} (hf : isFold h = true) : h ≠ '[' := by
  intro he; subst he; simp [isFold] at hf

lemma isFold_not_rbracket {h : Char} (hf : isFold h = true) : h ≠ ']' := by
  intro he; subst he; simp [isFold] at hf

lemma compileStep_not_op {im : List Instr} {ls : List Nat} {c : Char}
    (h : isOp c = false) : compileStep im ls c = Except.ok (im, ls) := by
  simp only [isOp, Bool.or_eq_false_iff, decide_eq_false_iff_not] at h
  simp [compileStep, h.1.1, h.1.2, h.2]

lemma compileAux_filter (src : List Char) : ∀ (im : List Instr) (ls : List Nat),
    compileAux src im ls = compileAux (src.filter isOp) im ls := by
  induction src with
  | nil => intro im ls; rfl
  | cons c cs ih =>
      intro im ls
      cases hc : isOp c with
      | false =>
          rw [List.filter_cons_of_neg (by simp [hc])]
          simp only [compileAux, compileStep_not_op hc]
          exact ih im ls
      | true =>
          rw [List.filter_cons_of_pos hc]
          simp only [compileAux]
          cases hs : compileStep im ls c with
          | ok p => exact ih p.1 p.2
          | error e => rfl

lemma bumpLast_concat : ∀ (l : List Instr) (x : Instr),
    bumpLast (l ++ [x]) = l ++ [{ x with quantity := x.quantity.map (· + 1) }]
  | [], _ => rfl
  | [_], _ => rfl
  | a :: b :: l, x => by
      show a :: bumpLast ((b :: l) ++ [x]) = (a :: b :: l) ++ [_]
      rw [bumpLast_concat (b :: l) x]
      rfl

lemma compileAux_cons_ok {c : Char} {cs : List Char} {im im1 : List Instr}
    {ls ls1 : List Nat} (h : compileStep im ls c = Except.ok (im1, ls1)) :
    compileAux (c :: cs) im ls = compileAux cs im1 ls1 := by
  show (match compileStep im ls c with
        | Except.ok (im', ls') => compileAux cs im' ls'
        | Except.error e => Except.error e) = compileAux cs im1 ls1
  rw [h]

lemma compileAux_cons_error {c : Char} {cs : List Char} {im : List Instr}
    {ls : List Nat} {e : CompileUB} (h : compileStep im ls c = Except.error e) :
    compileAux (c :: cs) im ls = Except.error e := by
  show (match compileStep im ls c with
        | Except.ok (im', ls') => compileAux cs im' ls'
        | Except.error e' => Except.error e') = Except.error e
  rw [h]

lemma compileStep_fold_merge {im : List Instr} {ls : List Nat} {c : Char}
    {last : Instr} (hc : isFold c = true) (hl : im.getLast? = some last)
    (he : last.instruction = c) :
    compileStep im ls c = Except.ok (bumpLast im, ls) := by
  simp [compileStep, hc, hl, he]

lemma compileStep_fold_new {im : List Instr} {ls : List Nat} {c : Char}
    (hc : isFold c = true)
    (hl : ∀ last, im.getLast? = some last → last.instruction ≠ c) :
    compileStep im ls c = Except.ok (im ++ [⟨c, some 1, none⟩], ls) := by
  cases him : im.getLast? with
  | none => simp [compileStep, hc, him]
  | some last => simp [compileStep, hc, him, hl last him]

lemma compileStep_lbracket {im : List Instr} {ls : List Nat} :
    compileStep im ls '[' =
      Except.ok (im ++ [⟨'[', none, none⟩], im.length :: ls) := by
  have h1 : isFold '[' = false := by decide
  simp [compileStep, h1]

lemma compileStep_rbracket_nil {im : List Instr} :
    compileStep im [] ']' = Except.error CompileUB.loopStackOOB := by
  have h1 : isFold ']' = false := by decide
  have h2 : ¬ (']' : Char) = '[' := by decide
  simp [compileStep, h1, h2]

lemma compileStep_rbracket_cons {im : List Instr} {top : Nat} {rest : List Nat} :
    compileStep im (top :: rest) ']' =
      Except.ok (setLoop im top im.length ++ [⟨']', none, some top⟩], rest) := by
  have h1 : isFold ']' = false := by decide
  have h2 : ¬ (']' : Char) = '[' := by decide
  simp [compileStep, h1, h2]

lemma compileAux_run_bump (c : Char) (hc : isFold c = true) :
    ∀ (k : Nat) (rest : List Char) (im : List Instr) (ls : List Nat) (j : Nat),
    compileAux (List.replicate k c ++ rest) (im ++ [⟨c, some j, none⟩]) ls =
      compileAux rest (im ++ [⟨c, some (j + k), none⟩]) ls := by
  intro k
  induction k with
  | zero => intro rest im ls j; rfl
  | succ k ih =>
      intro rest im ls j
      have hstep : compileStep (im ++ [(⟨c, some j, none⟩ : Instr)]) ls c =
          Except.ok (im ++ [⟨c, some (j + 1), none⟩], ls) := by
        rw [compileStep_fold_merge hc (List.getLast?_concat _) rfl,
          bumpLast_concat]
        rfl
      rw [List.replicate_succ, List.cons_append, compileAux_cons_ok hstep,
        ih rest im ls (j + 1)]
      have harith : j + 1 + k = j + (k + 1) := by omega
      rw [harith]

lemma compileAux_run_fresh (c : Char) (hc : isFold c = true) (k : Nat)
    (rest : List Char) (im : List Instr) (ls : List Nat)
    (hlast : ∀ last, im.getLast? = some last → last.instruction ≠ c) :
    compileAux (List.replicate (k + 1) c ++ rest) im ls =
      compileAux rest (im ++ [⟨c, some (1 + k), none⟩]) ls := by
  rw [List.replicate_succ, List.cons_append,
    compileAux_cons_ok (compileStep_fold_new hc hlast)]
  exact compileAux_run_bump c hc k rest im ls 1

lemma rleView_append (a b : List Instr) :
    rleView (a ++ b) = rleView a ++ rleView b := by
  simp [rleView]

lemma rleView_setLoop : ∀ (im : List Instr) (k n : Nat),
    rleView (setLoop im k n) = rleView im
  | [], _, _ => rfl
  | x :: xs, 0, n => rfl
  | x :: xs, k + 1, n => by
      simp only [setLoop, rleView, List.map_cons]
      have := rleView_setLoop xs k n
      simp only [rleView] at this
      rw [this]

lemma specView_cons_fold {c : Char} {cs : List Char} (hf : isFold c = true) :
    specView (c :: cs) =
      (c, some (1 + (cs.takeWhile (fun d => d = c)).length)) ::
        specView (cs.dropWhile (fun d => d = c)) := by
  rw [specView, foldSpec]
  simp [hf, specView]

lemma specView_cons_nofold {c : Char} {cs : List Char} (hf : isFold c = false) :
    specView (c :: cs) = (c, none) :: specView cs := by
  rw [specView, foldSpec]
  simp [hf, specView]

lemma takeWhile_eq_replicate (c : Char) (cs : List Char) :
    cs.takeWhile (fun d => d = c) =
      List.replicate (cs.takeWhile (fun d => d = c)).length c := by
  apply List.eq_replicate_of_mem
  intro b hb
  have := List.mem_takeWhile_imp hb
  exact of_decide_eq_true this

lemma head?_dropWhile_ne (c : Char) (cs : List Char) {h : Char}
    (hh : (cs.dropWhile (fun d => d = c)).head? = some h) : h ≠ c := by
  have := List.head?_dropWhile_not (fun d => decide (d = c)) cs
  simp only [hh] at this
  exact of_decide_eq_false this

lemma compileAux_rleView_aux : ∀ (n : Nat) (src : List Char), src.length ≤ n →
    (∀ c ∈ src, isOp c = true) →
    ∀ (im : List Instr) (ls : List Nat) (im' : List Instr) (ls' : List Nat),
    (∀ last h, im.getLast? = some last → src.head? = some h →
        isFold h = true → last.instruction ≠ h) →
    compileAux src im ls = Except.ok (im', ls') →
    rleView im' = rleView im ++ specView src := by
  intro n
  induction n with
  | zero =>
      intro src hlen hop im ls im' ls' hb hrun
      have : src = [] := List.eq_nil_of_length_eq_zero (Nat.le_zero.mp hlen)
      subst this
      cases hrun
      simp [specView, foldSpec]
  | succ n ih =>
      intro src hlen hop im ls im' ls' hb hrun
      cases src with
      | nil =>
          cases hrun
          simp [specView, foldSpec]
      | cons c cs =>
          cases hf : isFold c with
          | true =>
              have hsplit : c :: cs =
                  List.replicate ((cs.takeWhile (fun d => d = c)).length + 1) c ++
                    cs.dropWhile (fun d => d = c) := by
                rw [List.replicate_succ, List.cons_append]
                have : cs = List.replicate (cs.takeWhile (fun d => d = c)).length c ++
                    cs.dropWhile (fun d => d = c) := by
                  conv_lhs => rw [← List.takeWhile_append_dropWhile (fun d => d = c) cs]
                  rw [← takeWhile_eq_replicate]
                rw [← this]
              rw [hsplit] at hrun
              rw [compileAux_run_fresh c hf _ _ im ls
                (fun last hl => hb last c hl rfl hf)] at hrun
              have hlen' : (cs.dropWhile (fun d => d = c)).length ≤ n := by
                have h1 : (cs.dropWhile (fun d => d = c)).length ≤ cs.length :=
                  (List.dropWhile_sublist _).length_le
                simp only [List.length_cons] at hlen
                omega
              have hop' : ∀ d ∈ cs.dropWhile (fun d => d = c), isOp d = true := by
                intro d hd
                exact hop d (List.mem_cons_of_mem _ ((List.dropWhile_sublist _).subset hd))
              have hb' : ∀ last h,
                  (im ++ [(⟨c, some (1 + (cs.takeWhile (fun d => d = c)).length), none⟩ : Instr)]).getLast? = some last →
                  (cs.dropWhile (fun d => d = c)).head? = some h →
                  isFold h = true → last.instruction ≠ h := by
                intro last h hl hh _
                rw [List.getLast?_concat] at hl
                cases hl
                exact fun he => (head?_dropWhile_ne c cs hh) (by rw [← he])
              have hres := ih (cs.dropWhile (fun d => d = c)) hlen' hop'
                _ ls im' ls' hb' hrun
              rw [hres, rleView_append, specView_cons_fold hf]
              simp [rleView, List.append_assoc]
          | false =>
              have hopc := hop c (List.mem_cons_self _ _)
              simp only [isOp, hf, Bool.false_or, Bool.or_eq_true,
                decide_eq_true_eq] at hopc
              cases hopc with
              | inl hbr =>
                  subst hbr
                  rw [compileAux_cons_ok compileStep_lbracket] at hrun
                  have hb' : ∀ last h,
                      (im ++ [(⟨'[', none, none⟩ : Instr)]).getLast? = some last →
                      cs.head? = some h → isFold h = true → last.instruction ≠ h := by
                    intro last h hl _ hfh
                    rw [List.getLast?_concat] at hl
                    cases hl
                    exact fun he => isFold_not_lbracket hfh (by rw [← he])
                  have hlen' : cs.length ≤ n := by
                    simp only [List.length_cons] at hlen; omega
                  have hop' : ∀ d ∈ cs, isOp d = true :=
                    fun d hd => hop d (List.mem_cons_of_mem _ hd)
                  have hres := ih cs hlen' hop' _ _ im' ls' hb' hrun
                  rw [hres, rleView_append, specView_cons_nofold hf]
                  simp [rleView, List.append_assoc]
              | inr hbr =>
                  subst hbr
                  cases ls with
                  | nil =>
                      rw [compileAux_cons_error compileStep_rbracket_nil] at hrun
                      cases hrun
                  | cons top lrest =>
                      rw [compileAux_cons_ok compileStep_rbracket_cons] at hrun
                      have hb' : ∀ last h,
                          (setLoop im top im.length ++
                            [(⟨']', none, some top⟩ : Instr)]).getLast? = some last →
                          cs.head? = some h → isFold h = true → last.instruction ≠ h := by
                        intro last h hl _ hfh
                        rw [List.getLast?_concat] at hl
                        cases hl
                        exact fun he => isFold_not_rbracket hfh (by rw [← he])
                      have hlen' : cs.length ≤ n := by
                        simp only [List.length_cons] at hlen; omega
                      have hop' : ∀ d ∈ cs, isOp d = true :=
                        fun d hd => hop d (List.mem_cons_of_mem _ hd)
                      have hres := ih cs hlen' hop' _ _ im' ls' hb' hrun
                      rw [hres, rleView_append, rleView_setLoop,
                        specView_cons_nofold hf]
                      simp [rleView, List.append_assoc]

/-- C5: run-length folding.  For a source that compiles, the compiled
opcode/count sequence is exactly `foldSpec` of the source with all
non-operator characters removed: one instruction per maximal run of
identical foldable operator characters (non-operator characters in
between are ignored and do not break a run), with count equal to the
run length, and one instruction per bracket. -/
theorem c5_run_length_folding (src : List Char) (im : List Instr)
    (h : compile src = Except.ok im) :
    rleView im = specView (src.filter isOp) := by
  unfold compile at h
  cases hr : compileAux src [] [] with
  | error e => rw [hr] at h; cases h
  | ok p =>
      obtain ⟨im0, ls0⟩ := p
      rw [hr] at h
      cases h
      rw [compileAux_filter] at hr
      have hres := compileAux_rleView_aux (src.filter isOp).length
        (src.filter isOp) le_rfl
        (fun c hc => (List.mem_filter.mp hc).2)
        [] [] im ls0
        (fun last h hl _ _ => by simp at hl)
        hr
      simpa [rleView] using hres

/-- Witness for C5 at a concrete input: the source "+x+." (with an
ignored character splitting the plus run) compiles to IncValue count 2
then Write count 1. -/
theorem c5_run_length_folding_witness :
    rleView [⟨'+', some 2, none⟩, ⟨'.', some 1, none⟩] =
      specView (['+', 'x', '+', '.'].filter isOp) :=
  c5_run_length_folding ['+', 'x', '+', '.'] _ (by decide)

lemma length_loopView (im : List Instr) : (loopView im).length = im.length := by
  simp [loopView]

lemma mapFst_loopView (im : List Instr) :
    (loopView im).map Prod.fst = opsOf im := by
  simp [loopView, opsOf]

lemma loopView_append (a b : List Instr) :
    loopView (a ++ b) = loopView a ++ loopView b := by
  simp [loopView]

lemma loopView_bumpLast : ∀ (im : List Instr),
    loopView (bumpLast im) = loopView im
  | [] => rfl
  | [_] => rfl
  | a :: b :: l => by
      show (a.instruction, a.loop) :: loopView (bumpLast (b :: l)) = _
      rw [loopView_bumpLast (b :: l)]
      rfl

lemma length_bumpLast (im : List Instr) : (bumpLast im).length = im.length := by
  have h := congrArg List.length (loopView_bumpLast im)
  simpa [length_loopView] using h

lemma loopView_setLoop_decomp : ∀ (A : List (Char × Option Nat)) (im : List Instr)
    (c : Char) (t : Option Nat) (B : List (Char × Option Nat)) (n : Nat),
    loopView im = A ++ (c, t) :: B →
    loopView (setLoop im A.length n) = A ++ (c, some n) :: B := by
  intro A
  induction A with
  | nil =>
      intro im c t B n h
      cases im with
      | nil => simp [loopView] at h
      | cons x xs =>
          simp only [loopView, List.map_cons, List.nil_append] at h
          obtain ⟨h1, h2⟩ := List.cons.inj h
          obtain ⟨h1a, h1b⟩ := Prod.mk.injEq .. ▸ h1
          show (x.instruction, some n) :: loopView xs = (c, some n) :: B
          rw [h1a]
          exact congrArg (List.cons (c, some n)) h2
  | cons a A ih =>
      intro im c t B n h
      cases im with
      | nil => simp [loopView] at h
      | cons x xs =>
          simp only [loopView, List.map_cons, List.cons_append] at h
          obtain ⟨h1, h2⟩ := List.cons.inj h
          show (x.instruction, x.loop) :: loopView (setLoop xs A.length n) =
            a :: (A ++ (c, some n) :: B)
          rw [ih xs c t B n h2, h1]

lemma length_setLoop : ∀ (im : List Instr) (k n : Nat),
    (setLoop im k n).length = im.length
  | [], _, _ => rfl
  | _ :: xs, 0, _ => rfl
  | _ :: xs, k + 1, n => by
      show (setLoop xs k n).length + 1 = xs.length + 1
      rw [length_setLoop xs k n]

lemma getElem?_append_mid (A : List α) (x : α) (B : List α) :
    (A ++ x :: B)[A.length]? = some x := by
  rw [List.getElem?_append_right (Nat.le_refl A.length)]
  simp

lemma getElem?_append_mid' (A : List α) (x : α) (B : List α) (n : Nat)
    (h : A.length = n) : (A ++ x :: B)[n]? = some x := by
  subst h
  exact getElem?_append_mid A x B

lemma getElem?_append_cons_gt (A : List α) (x : α) (B : List α) (i : Nat)
    (h : A.length < i) :
    (A ++ x :: B)[i]? = B[i - A.length - 1]? := by
  rw [show A ++ x :: B = (A ++ [x]) ++ B by simp,
    List.getElem?_append_right (by simp; omega)]
  congr 1
  simp
  omega

lemma slice_stable (C D : List α) (a b : Nat) (h : a + b ≤ C.length) :
    ((C ++ D).drop a).take b = (C.drop a).take b := by
  have h1 : a ≤ C.length := by omega
  have h2 : (C ++ D).drop a = C.drop a ++ D := by
    rw [List.drop_append_eq_append_drop]
    rw [Nat.sub_eq_zero_of_le h1]
    simp
  rw [h2]
  have h3 : b ≤ (C.drop a).length := by simp; omega
  rw [List.take_append_eq_append_take, Nat.sub_eq_zero_of_le h3]
  simp

lemma compileAux_append_ok {a b : List Char} {im im0 : List Instr}
    {ls ls0 : List Nat} (h : compileAux a im ls = Except.ok (im0, ls0)) :
    compileAux (a ++ b) im ls = compileAux b im0 ls0 := by
  induction a generalizing im ls with
  | nil =>
      cases h
      rfl
  | cons c cs ih =>
      cases hs : compileStep im ls c with
      | ok pr =>
          obtain ⟨x, y⟩ := pr
          rw [List.cons_append, compileAux_cons_ok hs]
          rw [compileAux_cons_ok hs] at h
          exact ih h
      | error e =>
          rw [compileAux_cons_error hs] at h
          cases h

lemma compileAux_balanced {s : List Char} (hs : Balanced s) :
    ∀ (im : List Instr) (ls : List Nat),
    ∃ (im' : List Instr) (r : List (Char × Option Nat)),
      compileAux s im ls = Except.ok (im', ls) ∧
      loopView im' = loopView im ++ r ∧
      Balanced (r.map Prod.fst) ∧
      LinkedFrom (loopView im') im.length := by
  induction hs with
  | nil =>
      intro im ls
      refine ⟨im, [], rfl, by simp, Balanced.nil, ?_⟩
      intro i hi c t hget
      have hnone : (loopView im)[i]? = none :=
        List.getElem?_eq_none (by rw [length_loopView]; exact hi)
      rw [hnone] at hget
      cases hget
  | @ch c s' h1 h2 hb ih =>
      intro im ls
      cases hf : isFold c with
      | false =>
          have hop : isOp c = false := by
            simp [isOp, hf, h1, h2]
          obtain ⟨im', r, hok, hlv, hbr, hlink⟩ := ih im ls
          exact ⟨im', r,
            by rw [compileAux_cons_ok (compileStep_not_op hop)]; exact hok,
            hlv, hbr, hlink⟩
      | true =>
          by_cases hme : ∃ last, im.getLast? = some last ∧ last.instruction = c
          · obtain ⟨last, hl, he⟩ := hme
            obtain ⟨im', r, hok, hlv, hbr, hlink⟩ := ih (bumpLast im) ls
            refine ⟨im', r, ?_, ?_, hbr, ?_⟩
            · rw [compileAux_cons_ok (compileStep_fold_merge hf hl he)]
              exact hok
            · rw [hlv, loopView_bumpLast]
            · rw [length_bumpLast] at hlink
              exact hlink
          · have hme' : ∀ last, im.getLast? = some last → last.instruction ≠ c := by
              intro last hl he
              exact hme ⟨last, hl, he⟩
            obtain ⟨im', r1, hok, hlv, hbr, hlink⟩ :=
              ih (im ++ [⟨c, some 1, none⟩]) ls
            have hlen1 : (im ++ [(⟨c, some 1, none⟩ : Instr)]).length =
                im.length + 1 := by simp
            rw [hlen1] at hlink
            have hlv' : loopView im' = loopView im ++ (c, none) :: r1 := by
              rw [hlv, loopView_append]
              show (loopView im ++ [(c, (none : Option Nat))]) ++ r1 = _
              rw [List.append_assoc]
              rfl
            refine ⟨im', (c, none) :: r1, ?_, hlv', ?_, ?_⟩
            · rw [compileAux_cons_ok (compileStep_fold_new hf hme')]
              exact hok
            · show Balanced (((c, none) :: r1).map Prod.fst)
              simp only [List.map_cons]
              exact Balanced.ch h1 h2 hbr
            · intro i hi c0 t0 hget
              rcases Nat.eq_or_lt_of_le hi with hip | hip
              · subst hip
                have hentry : (loopView im')[im.length]? = some (c, none) := by
                  rw [hlv', ← length_loopView im]
                  exact getElem?_append_mid _ _ _
                rw [hentry] at hget
                obtain ⟨hc0, _⟩ := Prod.mk.injEq .. ▸ Option.some.inj hget
                constructor
                · intro hcc
                  exact absurd (hc0 ▸ hcc) h1
                · intro hcc
                  exact absurd (hc0 ▸ hcc) h2
              · obtain ⟨ho, hcl⟩ := hlink i hip c0 t0 hget
                refine ⟨ho, ?_⟩
                intro hc0
                obtain ⟨j, hj1, hj2, hj3, hj4, hj5⟩ := hcl hc0
                exact ⟨j, hj1, by omega, hj3, hj4, hj5⟩
  | @brk s' t' hbs hbt ih1 ih2 =>
      intro im ls
      obtain ⟨im2, rs, hok2, hlv2, hbrs, hlink2⟩ :=
        ih1 (im ++ [⟨'[', none, none⟩]) (im.length :: ls)
      have hlen1 : (im ++ [(⟨'[', none, none⟩ : Instr)]).length =
          im.length + 1 := by simp
      rw [hlen1] at hlink2
      have hA : (loopView im).length = im.length := length_loopView im
      have hlv2' : loopView im2 = loopView im ++ ('[', none) :: rs := by
        rw [hlv2, loopView_append]
        show (loopView im ++ [('[', (none : Option Nat))]) ++ rs = _
        rw [List.append_assoc]
        rfl
      have hq : im2.length = im.length + 1 + rs.length := by
        have h := congrArg List.length hlv2'
        rw [length_loopView] at h
        simp at h
        omega
      have hsl : loopView (setLoop im2 im.length im2.length) =
          loopView im ++ ('[', some im2.length) :: rs := by
        have h := loopView_setLoop_decomp (loopView im) im2 '[' none rs
          im2.length hlv2'
        rw [hA] at h
        exact h
      obtain ⟨im4, rt, hok4, hlv4, hbrt, hlink4⟩ :=
        ih2 (setLoop im2 im.length im2.length ++ [⟨']', none, some im.length⟩]) ls
      have hlen3 : (setLoop im2 im.length im2.length ++
          [(⟨']', none, some im.length⟩ : Instr)]).length = im2.length + 1 := by
        simp [length_setLoop]
      rw [hlen3] at hlink4
      have hlv3 : loopView (setLoop im2 im.length im2.length ++
          [⟨']', none, some im.length⟩]) =
          (loopView im ++ ('[', some im2.length) :: rs) ++
            [(']', some im.length)] := by
        rw [loopView_append, hsl]
        rfl
      have hlv4' : loopView im4 = loopView im ++
          ('[', some im2.length) :: (rs ++ (']', some im.length) :: rt) := by
        rw [hlv4, hlv3]
        simp [List.append_assoc]
      have hL4' : loopView im4 = (loopView im ++ ('[', some im2.length) :: rs) ++
          ((']', some im.length) :: rt) := by
        rw [hlv4']
        simp [List.append_assoc]
      have hlenmid : (loopView im ++ ('[', some im2.length) :: rs).length =
          im2.length := by
        simp [hA]
        omega
      have hopenEntry : (loopView im4)[im.length]? =
          some ('[', some im2.length) := by
        rw [hlv4']
        exact getElem?_append_mid' _ _ _ _ hA
      have hcloseEntry : (loopView im4)[im2.length]? =
          some (']', some im.length) := by
        rw [hL4']
        exact getElem?_append_mid' _ _ _ _ hlenmid
      have hM4M2 : (loopView im4).map Prod.fst =
          (loopView im2).map Prod.fst ++ ']' :: rt.map Prod.fst := by
        rw [hL4', hlv2']
        simp
      have hlenM2 : ((loopView im2).map Prod.fst).length = im2.length := by
        simp [length_loopView]
      have hsigma : (((loopView im4).map Prod.fst).drop (im.length + 1)).take
          (im2.length - (im.length + 1)) = rs.map Prod.fst := by
        have hsplit : (loopView im4).map Prod.fst =
            ((loopView im).map Prod.fst ++ ['[']) ++
              (rs.map Prod.fst ++ ']' :: rt.map Prod.fst) := by
          rw [hlv4']
          simp
        rw [hsplit, List.drop_left' (by simp [hA]),
          List.take_left' (by simp; omega)]
      have hmid : ∀ i, im.length < i → i < im2.length →
          (loopView im4)[i]? = (loopView im2)[i]? := by
        intro i hpi hiq
        rw [hL4', List.getElem?_append_left (by rw [hlenmid]; exact hiq), hlv2',
          getElem?_append_cons_gt _ _ _ i (by rw [hA]; exact hpi),
          getElem?_append_cons_gt _ _ _ i (by rw [hA]; exact hpi)]
      refine ⟨im4, ('[', some im2.length) :: (rs ++ (']', some im.length) :: rt),
        ?_, hlv4', ?_, ?_⟩
      · show compileAux ('[' :: (s' ++ ']' :: t')) im ls = Except.ok (im4, ls)
        rw [compileAux_cons_ok compileStep_lbracket, compileAux_append_ok hok2,
          compileAux_cons_ok compileStep_rbracket_cons]
        exact hok4
      · show Balanced ((('[', some im2.length) ::
          (rs ++ (']', some im.length) :: rt)).map Prod.fst)
        simp only [List.map_cons, List.map_append]
        exact Balanced.brk hbrs hbrt
      · intro i hi c0 t0 hget
        rcases Nat.lt_trichotomy i im2.length with hiq | hiq | hiq
        · rcases Nat.eq_or_lt_of_le hi with hip | hip
          · subst hip
            rw [hopenEntry] at hget
            obtain ⟨hc0, ht0⟩ := Prod.mk.injEq .. ▸ Option.some.inj hget
            constructor
            · intro _
              refine ⟨im2.length, ht0.symm, by omega, hcloseEntry, ?_⟩
              rw [hsigma]
              exact hbrs
            · intro hcc
              exact absurd (hc0 ▸ hcc) (by decide)
          · have hE : (loopView im4)[i]? = (loopView im2)[i]? := hmid i hip hiq
            rw [hE] at hget
            obtain ⟨ho2, hcl2⟩ := hlink2 i hip c0 t0 hget
            constructor
            · intro hc0
              obtain ⟨j, hj1, hj2, hj3, hj4⟩ := ho2 hc0
              have hjq : j < im2.length := by
                obtain ⟨hlt, _⟩ := List.getElem?_eq_some_iff.mp hj3
                rw [length_loopView] at hlt
                exact hlt
              refine ⟨j, hj1, hj2, ?_, ?_⟩
              · rw [hmid j (by omega) hjq]
                exact hj3
              · rw [hM4M2, slice_stable _ _ (i + 1) (j - (i + 1))
                  (by rw [hlenM2]; omega)]
                exact hj4
            · intro hc0
              obtain ⟨j, hj1, hj2, hj3, hj4, hj5⟩ := hcl2 hc0
              refine ⟨j, hj1, by omega, hj3, ?_, ?_⟩
              · rw [hmid j (by omega) (by omega)]
                exact hj4
              · rw [hM4M2, slice_stable _ _ (j + 1) (i - (j + 1))
                  (by rw [hlenM2]; omega)]
                exact hj5
        · subst hiq
          rw [hcloseEntry] at hget
          obtain ⟨hc0, ht0⟩ := Prod.mk.injEq .. ▸ Option.some.inj hget
          constructor
          · intro hcc
            exact absurd (hc0 ▸ hcc) (by decide)
          · intro _
            refine ⟨im.length, ht0.symm, Nat.le_refl _, by omega, hopenEntry, ?_⟩
            rw [hsigma]
            exact hbrs
        · obtain ⟨ho4, hcl4⟩ := hlink4 i (by omega) c0 t0 hget
          refine ⟨ho4, ?_⟩
          intro hc0
          obtain ⟨j, hj1, hj2, hj3, hj4, hj5⟩ := hcl4 hc0
          exact ⟨j, hj1, by omega, hj3, hj4, hj5⟩

lemma loopView_entry_inv {im : List Instr} {j : Nat} {c : Char} {t : Option Nat}
    (h : (loopView im)[j]? = some (c, t)) :
    ∃ x, im[j]? = some x ∧ x.instruction = c ∧ x.loop = t := by
  unfold loopView at h
  rw [List.getElem?_map] at h
  cases him : im[j]? with
  | none => rw [him] at h; cases h
  | some x =>
      rw [him] at h
      simp at h
      exact ⟨x, rfl, h.1, h.2⟩

/-- C6: loop matching.  For every source with well-formed brackets,
compilation succeeds and every LoopOpen's `loop` target is the index of
its matching LoopClose (the close at the same nesting depth: the opcodes
strictly between them are themselves well formed), every LoopClose's
target is its matching LoopOpen, the two point at each other, and each
close sits at a strictly greater index than its open. -/
theorem c6_loop_matching (src : List Char) (hs : Balanced src) :
    ∃ im, compile src = Except.ok im ∧
      ∀ i ins, im[i]? = some ins →
        (ins.instruction = '[' → ∃ j jns, ins.loop = some j ∧
            im[j]? = some jns ∧ jns.instruction = ']' ∧ jns.loop = some i ∧
            Matched im i j) ∧
        (ins.instruction = ']' → ∃ j jns, ins.loop = some j ∧
            im[j]? = some jns ∧ jns.instruction = '[' ∧ jns.loop = some i ∧
            Matched im j i) := by
  obtain ⟨im', r, hok, hlv, hbr, hlink⟩ := compileAux_balanced hs [] []
  refine ⟨im', ?_, ?_⟩
  · show (match compileAux src [] [] with
      | Except.ok (im, _) => Except.ok im
      | Except.error e => Except.error e) = Except.ok im'
    rw [hok]
  · intro i ins hget
    have hgv : (loopView im')[i]? = some (ins.instruction, ins.loop) := by
      unfold loopView
      rw [List.getElem?_map, hget]
      rfl
    obtain ⟨ho, hcl⟩ := hlink i (Nat.zero_le i) ins.instruction ins.loop hgv
    constructor
    · intro hC
      obtain ⟨j, hj1, hj2, hj3, hj4⟩ := ho hC
      obtain ⟨jns, hjg, hji, hjl⟩ := loopView_entry_inv hj3
      refine ⟨j, jns, hj1, hjg, hji, hjl, hj2, ?_, ?_, ?_⟩
      · rw [hget]
        simp [hC]
      · rw [hjg]
        simp [hji]
      · rw [← mapFst_loopView]
        exact hj4
    · intro hC
      obtain ⟨j, hj1, _, hj3, hj4, hj5⟩ := hcl hC
      obtain ⟨jns, hjg, hji, hjl⟩ := loopView_entry_inv hj4
      refine ⟨j, jns, hj1, hjg, hji, hjl, hj3, ?_, ?_, ?_⟩
      · rw [hjg]
        simp [hji]
      · rw [hget]
        simp [hC]
      · rw [← mapFst_loopView]
        exact hj5

/-- Witness for C6 at the concrete source "[]", whose bracket nesting is
well formed by construction. -/
theorem c6_loop_matching_witness :
    ∃ im, compile ['[', ']'] = Except.ok im ∧
      ∀ i ins, im[i]? = some ins →
        (ins.instruction = '[' → ∃ j jns, ins.loop = some j ∧
            im[j]? = some jns ∧ jns.instruction = ']' ∧ jns.loop = some i ∧
            Matched im i j) ∧
        (ins.instruction = ']' → ∃ j jns, ins.loop = some j ∧
            im[j]? = some jns ∧ jns.instruction = '[' ∧ jns.loop = some i ∧
            Matched im j i) :=
  c6_loop_matching ['[', ']'] (Balanced.brk Balanced.nil Balanced.nil)

/-- C1: the compile scan has no unmatched-bracket diagnostics.  A source
consisting of a single `[` compiles successfully to one instruction
whose `loop` field is never written (no UnmatchedOpenError exists in the
program; the stack left non-empty after the scan is not inspected), and
a source consisting of a single `]` makes the scan read the loop stack
out of bounds (`ls[-1]`, undefined behaviour) rather than abort with an
UnmatchedCloseError diagnostic. -/
theorem c1_no_unmatched_bracket_diagnosis :
    compile ['['] = Except.ok [⟨'[', none, none⟩] ∧
    compile [']'] = Except.error CompileUB.loopStackOOB := by
  exact ⟨by decide, by decide⟩

/-- C2: under the Wrap value policy the code does not reduce with a
non-negative modulus.  With the default configuration (range 0-255,
`vw = 'w'`), a `DecValue` of count 1 on a cell holding 0 stores -1,
which is outside the range; the claimed result, computed with the
mathematically non-negative modulus, would be 255. -/
theorem c2_wrap_underflow_escapes_range :
    execVdec defaults 1 0 = Except.ok (-1) ∧
    defaults.va ≤ (0 : Int) ∧ (0 : Int) ≤ defaults.vb ∧
    ¬ defaults.va ≤ (-1 : Int) ∧
    ((0 : Int) - 1 - defaults.va) % (defaults.vb - defaults.va + 1) +
        defaults.va = 255 := by
  exact ⟨by decide, by decide, by decide, by decide, by decide⟩

/-- C3: under the Wrap pointer policy the code wraps with modulus
`cell_count + 1` and C's truncated remainder, not modulus `cell_count`.
With 10 cells, `<` at pointer 0 yields pointer -1 (the claim says 9) and
`>` at pointer 9 yields pointer 10 (the claim says 0); both escape
`[0, cell_count - 1]`, while the claimed reductions modulo 10 are 9 and
0 respectively. -/
theorem c3_pointer_wrap_escapes_range :
    execPdec cfgTen 1 0 = Except.ok (-1) ∧
    execPinc cfgTen 1 9 = Except.ok 10 ∧
    ((0 : Int) - 1) % cfgTen.cn = 9 ∧
    ((9 : Int) + 1) % cfgTen.cn = 0 := by
  exact ⟨by decide, by decide, by decide, by decide⟩

/-- C4: EOF substitution on a `Read` that finds the input exhausted.
The policies Zero, MinValue, MaxValue and NegativeOne behave as claimed,
but NoChange does not leave the cell unmodified: the `BF_EOF_NOCHG` arm
is an empty `break`, after which `cm[ci] = k` still runs with `k` equal
to `EOF` (-1), so a cell holding 5 ends up holding -1. -/
theorem c4_eof_nochange_clobbers_cell :
    execRead { defaults with ce := '0' } 1 [] 5 = Except.ok ([], 0) ∧
    execRead { defaults with ce := 'a' } 1 [] 5 = Except.ok ([], defaults.va) ∧
    execRead { defaults with ce := 'b' } 1 [] 5 = Except.ok ([], defaults.vb) ∧
    execRead { defaults with ce := 'n' } 1 [] 5 = Except.ok ([], -1) ∧
    execRead { defaults with ce := 'x' } 1 [] 5 = Except.ok ([], -1) ∧
    (-1 : Int) ≠ 5 := by
  exact ⟨by decide, by decide, by decide, by decide, by decide, by decide⟩

/-- C7: the scan arms for `[` and `]` (brief.c lines 146-165) never
write the `quantity` field, so bracket instructions carry uninitialized
quantities (`none` in this model), not the count 1 the claim states;
dump mode prints this indeterminate field. -/
theorem c7_bracket_quantity_uninitialized :
    compile ['[', ']'] =
      Except.ok [⟨'[', none, some 1⟩, ⟨']', none, some 0⟩] := by
  decide

/-- C8: under the clamping (`BF_END_IGNORE`) policy, a value increment
whose candidate exceeds `vb` stores exactly `vb`, a decrement whose
candidate undershoots `va` stores exactly `va`, a pointer increment
past the end sets the pointer to `cn - 1`, and a pointer decrement
below 0 sets it to 0. -/
theorem c8_saturate_clamps (cfg : Config) (q x y p r : Int)
    (hv : cfg.vw = 'i') (hc : cfg.cw = 'i')
    (h1 : x + q > cfg.vb) (h2 : y - q < cfg.va)
    (h3 : p + q > cfg.cn - 1) (h4 : r - q < 0) :
    execVinc cfg q x = Except.ok cfg.vb ∧
    execVdec cfg q y = Except.ok cfg.va ∧
    execPinc cfg q p = Except.ok (cfg.cn - 1) ∧
    execPdec cfg q r = Except.ok 0 := by
  refine ⟨?_, ?_, ?_, ?_⟩ <;>
    simp [execVinc, execVdec, execPinc, execPdec, hv, hc, h1, h2, h3, h4]

/-- Witness for C8 at a concrete input: range 0-255 with 30000 cells,
single increments at the boundaries. -/
theorem c8_saturate_clamps_witness :
    execVinc cfgSat 1 255 = Except.ok cfgSat.vb ∧
    execVdec cfgSat 1 0 = Except.ok cfgSat.va ∧
    execPinc cfgSat 1 29999 = Except.ok (cfgSat.cn - 1) ∧
    execPdec cfgSat 1 0 = Except.ok 0 :=
  c8_saturate_clamps cfgSat 1 255 0 29999 0 rfl rfl
    (by decide) (by decide) (by decide) (by decide)

/-- C9: compilation is independent of the runtime configuration: the
scan of brief.c lines 127-168 references none of the configuration
locals, so any two configurations compile every source identically. -/
theorem c9_compile_config_independent (cfg cfg' : Config) (src : List Char) :
    compileWithConfig cfg src = compileWithConfig cfg' src := rfl

/-- C10: a `Read` repetition that obtains a byte stores it into the cell
unchanged, with no check against the configured range: whenever the byte
lies outside `[va, vb]`, the cell afterwards holds the raw byte value
even though it is out of range. -/
theorem c10_read_stores_raw_byte (cfg : Config) (b cell : Int)
    (input : List Int) (h : b < cfg.va ∨ cfg.vb < b) :
    execRead cfg 1 (b :: input) cell = Except.ok (input, b) ∧
    ¬ (cfg.va ≤ b ∧ b ≤ cfg.vb) := by
  refine ⟨rfl, ?_⟩
  rcases h with h | h <;> omega

/-- Witness for C10 at a concrete input: `value_max = 10` and an input
byte of 65; the cell ends up holding 65. -/
theorem c10_read_stores_raw_byte_witness :
    execRead cfgTenMax 1 [65] 0 = Except.ok ([], 65) ∧
    ¬ (cfgTenMax.va ≤ (65 : Int) ∧ (65 : Int) ≤ cfgTenMax.vb) :=
  c10_read_stores_raw_byte cfgTenMax 65 0 [] (Or.inr (by decide))

end Brief
